import Mathlib

/-!
# Verification of the FFT engine in `main/src/user/fft.c`

This file gives a shallow embedding of the audio-spectrum FFT engine
(`fft.c` of the bluetooth visual speaker firmware) and proves or refutes
the specification claims about it.

Modelling conventions:
* C `float` arithmetic is modelled by exact real arithmetic (`ℝ`);
  `float complex` by `ℂ`.
* C arrays are modelled as total functions from their index type; the
  loops of the source only touch the in-range indices, which the
  embedding mirrors with an explicit indexed-loop combinator `loopN`.
* `uint16_t` stored values are modelled as `ℕ`; the C conversion from
  `float` to `uint16_t` truncates toward zero, modelled by `Int.toNat ∘
  Int.floor` followed by reduction mod 2^16 (out-of-range conversions,
  undefined behaviour in C, are modelled as wrap-around).
* The configuration constants `FFT_N`, `FFT_OUT_N`, `BAND_N`,
  `BAND_FADE`, `BAND_DELAY` come from the header `user/fft.h`, which is
  not part of the sources here; following the interface description
  (compile-time constants, `FFT_N` a power of two) every definition is
  parameterised by them.
* `log10f` is modelled by `Real.logb 10`; `powf` by `Real.rpow`;
  `cexpf` by `Complex.exp`.
-/

namespace FFTC

/-- In-place indexed loop: `for (i = 0; i < n; i++) buf[i] = g(i, buf[i])`.
Each iteration reads and writes only index `i`, which is exactly the
access pattern of the output-shaping loops of `fft.c`. -/
def loopN {α : Type} : ℕ → (ℕ → α → α) → (ℕ → α) → ℕ → α
  | 0, _, buf => buf
  | k + 1, g, buf => Function.update (loopN k g buf) k (g k (loopN k g buf k))

/-- The final clamp of all three output shapers:
`if (v > max_val) v = max_val; else if (v < min_val) v = min_val;`. -/
def clampU (maxv minv v : ℕ) : ℕ :=
  if v > maxv then maxv else if v < minv then minv else v

noncomputable section

/-- C conversion of a nonnegative in-range `float` to `uint16_t`:
truncation toward zero; out-of-range conversion (UB in C) modelled as
wrap-around mod 2^16. -/
def toU16 (x : ℝ) : ℕ := (Int.toNat ⌊x⌋) % 65536

/-- `compute_freq_lin` (fft.c:60-69): sums `step` consecutive bins of the
spectrum starting at `step*idx` and returns `n / step * 2.0`. -/
def compute_freq_lin (freq : ℕ → ℝ) (step idx : ℕ) : ℝ :=
  (∑ i in Finset.range step, freq (step * idx + i)) / step * 2

/-- The body of the `fft_compute_lin` loop (fft.c:99-107) acting on one
element of the output buffer. -/
def linUpdate (freq : ℕ → ℝ) (step maxv minv : ℕ) (i v : ℕ) : ℕ :=
  let v1 := toU16 ((v : ℝ) + compute_freq_lin freq step i * ((maxv : ℝ) / 40))
  let v2 := toU16 ((v1 : ℝ) / 2)
  clampU maxv minv v2

/-- `fft_compute_lin` (fft.c:97-109), parameterised by `FFT_OUT_N`
(`outN`) and the group width `FFT_N / FFT_OUT_N` (`step`). -/
def fft_compute_lin (outN step : ℕ) (freq : ℕ → ℝ) (maxv minv : ℕ)
    (out : ℕ → ℕ) : ℕ → ℕ :=
  loopN outN (linUpdate freq step maxv minv) out

/-- The body of the `fft_compute_log` loop (fft.c:113-121). -/
def logUpdate (freq : ℕ → ℝ) (step maxv minv : ℕ) (i v : ℕ) : ℕ :=
  let v1 := toU16 ((v : ℝ) +
    20 * Real.logb 10 (1 + compute_freq_lin freq step i) * ((maxv : ℝ) / 40))
  let v2 := toU16 ((v1 : ℝ) / 2)
  clampU maxv minv v2

/-- `fft_compute_log` (fft.c:111-123). -/
def fft_compute_log (outN step : ℕ) (freq : ℕ → ℝ) (maxv minv : ℕ)
    (out : ℕ → ℕ) : ℕ → ℕ :=
  loopN outN (logUpdate freq step maxv minv) out

end

/-! ## Bit reversal (fft.c:25-35)

`bit_reverse` loops `for (i = FFT_N >> 1; i > 0; i >>= 1)`, i.e. it runs
`log2 FFT_N` times for `FFT_N = 2^m`; the embedding takes the iteration
count `m` directly. -/

/-- The loop of `bit_reverse`: each iteration does
`y = (y << 1) | (x & 1); x >>= 1;`.  Since `y << 1` has lowest bit `0`,
the `|` is addition. -/
def bitRevAux : ℕ → ℕ → ℕ → ℕ
  | 0, _, y => y
  | k + 1, x, y => bitRevAux k (x / 2) (2 * y + x % 2)

/-- `bit_reverse` (fft.c:25-35) for `FFT_N = 2^m`. -/
def bit_reverse (m x : ℕ) : ℕ := bitRevAux m x 0

/-- Accumulator-free form of the bit reversal: reverse the low `k` bits. -/
def revBits : ℕ → ℕ → ℕ
  | 0, _ => 0
  | k + 1, x => x % 2 * 2 ^ k + revBits k (x / 2)

/-! ## Precomputed tables (fft.c:37-58) and the band shaper -/

noncomputable section

/-- One Hamming-window coefficient (fft.c:45-47):
`window[i] = 0.53836 - 0.46164 * cosf(i * TWO_PI / (FFT_N * 2 - 1))`. -/
def windowTable (N : ℕ) (i : ℕ) : ℝ :=
  0.53836 - 0.46164 * Real.cos ((i : ℝ) * (2 * Real.pi) / (2 * (N : ℝ) - 1))

/-- One band-boundary entry (fft.c:49-52):
`xscale[i] = powf(FFT_N, (float)i / BAND_N) - 0.5`. -/
def xscaleTable (N B : ℕ) (i : ℕ) : ℝ :=
  (N : ℝ) ^ ((i : ℝ) / (B : ℝ)) - 0.5

/-- One twiddle factor (fft.c:54-57):
`root[i] = cexpf(-i * TWO_PI / (FFT_N - 1) * I)`. -/
def rootTable (N : ℕ) (i : ℕ) : ℂ :=
  Complex.exp (((-((i : ℝ) * (2 * Real.pi) / ((N : ℝ) - 1))) : ℝ) * Complex.I)

/-- `compute_freq_band` (fft.c:71-95).  Spectrum indices are `ℤ`, as in C
(`int a, b`); the band sum reads `freq[a-1]`, `freq[a..b-1]` and `freq[b]`. -/
def compute_freq_band (N B : ℕ) (freq : ℤ → ℝ) (xs : ℕ → ℝ) (band : ℕ) : ℝ :=
  let a : ℤ := ⌈xs band⌉
  let b : ℤ := ⌊xs (band + 1)⌋
  let n : ℝ :=
    if b < a then
      freq b * (xs (band + 1) - xs band)
    else
      (if 0 < a then freq (a - 1) * ((a : ℝ) - xs band) else 0) +
      (∑ j in Finset.Ico a b, freq j) +
      (if b < (N : ℤ) then freq b * (xs (band + 1) - (b : ℝ)) else 0)
  20 * Real.logb 10 (n * B / N / 12)

/-- The set of spectrum indices read by `compute_freq_band`, branch by
branch: `freq[b]` in the narrow-band branch, otherwise `freq[a-1]` when
`a > 0`, the full bins `freq[a..b-1]`, and `freq[b]` when `b < FFT_N`. -/
def bandAccess (N : ℕ) (xs : ℕ → ℝ) (band : ℕ) : Finset ℤ :=
  let a : ℤ := ⌈xs band⌉
  let b : ℤ := ⌊xs (band + 1)⌋
  if b < a then {b}
  else (if 0 < a then {a - 1} else ∅) ∪ Finset.Ico a b ∪
    (if b < (N : ℤ) then {b} else ∅)

/-- The new band value (fft.c:130):
`x = (40 + compute_freq_band(freq, xscale, i)) * (max_val / 64.0)`. -/
def bandX (N B maxv : ℕ) (freq : ℤ → ℝ) (xs : ℕ → ℝ) (i : ℕ) : ℝ :=
  (40 + compute_freq_band N B freq xs i) * ((maxv : ℝ) / 64)

/-- One iteration of the `fft_compute_bands` loop body (fft.c:129-149) on
the pair (displayed value, delay counter) of a single band.  The decay
`MAX(0, data_out[i] - (BAND_FADE - delay[i]))` is `int` arithmetic whose
result is stored back into a `uint16_t`. -/
def bandStep (F D maxv minv : ℕ) (x : ℝ) (p : ℕ × ℕ) : ℕ × ℕ :=
  let v1 : ℕ := (Int.toNat (max 0 ((p.1 : ℤ) - ((F : ℤ) - (p.2 : ℤ))))) % 65536
  let d1 : ℕ := if p.2 ≠ 0 then p.2 - 1 else p.2
  let pd : ℕ × ℕ := if x > (v1 : ℝ) then (toU16 x, D) else (v1, d1)
  (clampU maxv minv pd.1, pd.2)

/-- `fft_compute_bands` (fft.c:125-150): per-band state is the pair
(`data_out[i]`, `delay[i]`). -/
def fft_compute_bands (B N F D maxv minv : ℕ) (freq : ℤ → ℝ)
    (xs : ℕ → ℝ) (st : ℕ → ℕ × ℕ) : ℕ → ℕ × ℕ :=
  loopN B (fun i p => bandStep F D maxv minv (bandX N B maxv freq xs i) p) st

/-- A sequence of `fft_compute_bands` frames, one spectrum per frame. -/
def bandsIter (B N F D maxv minv : ℕ) (xs : ℕ → ℝ)
    (freqs : List (ℤ → ℝ)) (st : ℕ → ℕ × ℕ) : ℕ → ℕ × ℕ :=
  freqs.foldl (fun s f => fft_compute_bands B N F D maxv minv f xs s) st

/-! ## The transform (fft.c:152-178) -/

/-- One butterfly stage of `fft_execute` with sub-block half-width `half`
and twiddle stride `i` (fft.c:158-166), as a map on the whole buffer:
position `g + b` (with `b < half`) becomes `even + odd * root[b*i]` and
position `g + b + half` becomes `even - odd * root[b*i]`.  Each butterfly
reads exactly the two slots it writes, so the in-place loop is this map. -/
def fftPass (half i : ℕ) (root : ℕ → ℂ) (d : ℕ → ℂ) : ℕ → ℂ := fun k =>
  let b := k % (2 * half)
  if b < half then d k + d (k + half) * root (b * i)
  else d (k - half) - d k * root ((b - half) * i)

/-- The stage loop of `fft_execute` (fft.c:157-169): `fuel` stages remain,
`half` is the current half-width, `i` the current stride; `half` doubles
and `i` halves each stage.  For `FFT_N = 2^m` the C loop
`for (i = FFT_N >> 1; i > 0; i >>= 1)` runs exactly `m` times. -/
def fftRun (root : ℕ → ℂ) : ℕ → ℕ → ℕ → (ℕ → ℂ) → ℕ → ℂ
  | 0, _, _, d => d
  | fuel + 1, half, i, d => fftRun root fuel (2 * half) (i / 2) (fftPass half i root d)

/-- The in-place butterfly network of `fft_execute` for `FFT_N = 2^m`. -/
def fft_execute_data (m : ℕ) (root : ℕ → ℂ) (d : ℕ → ℂ) : ℕ → ℂ :=
  fftRun root m 1 (2 ^ m / 2) d

/-- The amplitude extraction of `fft_execute` (fft.c:171-175), before the
final DC halving: for `j = 2*i` resp. `2*i + 1`,
`freq[j] = 0.5 * cabsf(data[i] ± conjf(data[FFT_N-1-i])) / FFT_N * scale_factor`. -/
def freqRaw (N : ℕ) (sf : ℝ) (d : ℕ → ℂ) : ℕ → ℝ := fun j =>
  if j % 2 = 0 then
    0.5 * Complex.abs (d (j / 2) + (starRingEnd ℂ) (d (N - 1 - j / 2))) / N * sf
  else
    0.5 * Complex.abs (d (j / 2) - (starRingEnd ℂ) (d (N - 1 - j / 2))) / N * sf

/-- The spectrum after `fft_execute`, including `freq[0] /= 2.0` (fft.c:177). -/
def freqOut (N : ℕ) (sf : ℝ) (d : ℕ → ℂ) : ℕ → ℝ := fun j =>
  if j = 0 then freqRaw N sf d 0 / 2 else freqRaw N sf d j

/-- Reference direct DFT: `X k = ∑ n, x n · exp (-2·π·I·k·n/N)`. -/
def dft (N : ℕ) (x : ℕ → ℂ) (k : ℕ) : ℂ :=
  ∑ n in Finset.range N, x n *
    Complex.exp (((-(2 * Real.pi * (k : ℝ) * (n : ℝ) / (N : ℝ))) : ℝ) * Complex.I)

/-- A time-domain impulse at index 1 (natural order), `FFT_N = 4`. -/
def impulse1 : ℕ → ℂ := fun n => if n = 1 then 1 else 0

/-- The impulse as it sits in the engine buffer after the bit-reversal
permuted load `data[bitrev[i]] = x[i]`: buffer slot `n` holds
`x[bit_reverse n]` (the table is self-inverse), here with `m = 2`. -/
def impulse1Rev : ℕ → ℂ := fun n => impulse1 (bit_reverse 2 n)

/-! ## Engine state, initialisation and sample loading -/

/-- The static state of `fft.c` (fft.c:15-23, plus the static `delay`
array of `fft_compute_bands`, fft.c:127). -/
structure FFTState where
  freq : ℕ → ℝ
  bitrev : ℕ → ℕ
  window : ℕ → ℝ
  xscale : ℕ → ℝ
  data : ℕ → ℂ
  root : ℕ → ℂ
  generated : Bool
  delay : ℕ → ℕ

/-- `compute_fft_tables` (fft.c:37-58) for `FFT_N = 2^m`, `BAND_N = B`. -/
def compute_fft_tables (N m B : ℕ) (s : FFTState) : FFTState :=
  { s with
    bitrev := loopN N (fun i _ => bit_reverse m i) s.bitrev
    window := loopN (2 * N) (fun i _ => windowTable N i) s.window
    xscale := loopN (B + 1) (fun i _ => xscaleTable N B i) s.xscale
    root := loopN (N / 2) (fun i _ => rootTable N i) s.root }

/-- `fft_init` (fft.c:220-229): always `memset`s the time-domain buffer,
then builds the tables at most once, guarded by `generated`. -/
def fft_init (N m B : ℕ) (s : FFTState) : FFTState :=
  let s1 := { s with data := loopN N (fun _ _ => (0 : ℂ)) s.data }
  if s1.generated then s1
  else { compute_fft_tables N m B s1 with generated := true }

/-- C cast of an unsigned 16-bit pattern to `int16_t` (two's complement):
used for `(int16_t)(data_in[hi] << 8 | data_in[lo])`. -/
def toInt16 (v : ℕ) : ℤ :=
  if v % 65536 < 32768 then (v % 65536 : ℤ) else (v % 65536 : ℤ) - 65536

/-- The little-endian signed 16-bit sample at byte offsets `lo`, `hi` of
the input block (bytes are `uint8_t`, hence the `% 256`). -/
def sample16 (inp : ℕ → ℕ) (lo hi : ℕ) : ℤ :=
  toInt16 (inp hi % 256 * 256 + inp lo % 256)

/-- Windowed complex sample `i` for channel `FFT_CHANNEL_L` (fft.c:184-191). -/
def sampleL (window : ℕ → ℝ) (inp : ℕ → ℕ) (i : ℕ) : ℂ :=
  let re : ℝ := (sample16 inp (i * 8) (i * 8 + 1) : ℝ) * window (i * 2)
  let im : ℝ := (sample16 inp (i * 8 + 4) (i * 8 + 5) : ℝ) * window (i * 2 + 1)
  (re : ℂ) + (im : ℂ) * Complex.I

/-- Windowed complex sample `i` for channel `FFT_CHANNEL_R` (fft.c:194-201). -/
def sampleR (window : ℕ → ℝ) (inp : ℕ → ℕ) (i : ℕ) : ℂ :=
  let re : ℝ := (sample16 inp (i * 8 + 2) (i * 8 + 3) : ℝ) * window (i * 2)
  let im : ℝ := (sample16 inp (i * 8 + 6) (i * 8 + 7) : ℝ) * window (i * 2 + 1)
  (re : ℂ) + (im : ℂ) * Complex.I

/-- Windowed complex sample `i` for channel `FFT_CHANNEL_LR`
(fft.c:204-213): stereo average (`/ 2.0`) before windowing. -/
def sampleLR (window : ℕ → ℝ) (inp : ℕ → ℕ) (i : ℕ) : ℂ :=
  let re : ℝ := ((sample16 inp (i * 8) (i * 8 + 1) +
    sample16 inp (i * 8 + 2) (i * 8 + 3) : ℤ) : ℝ) / 2 * window (i * 2)
  let im : ℝ := ((sample16 inp (i * 8 + 4) (i * 8 + 5) +
    sample16 inp (i * 8 + 6) (i * 8 + 7) : ℤ) : ℝ) / 2 * window (i * 2 + 1)
  (re : ℂ) + (im : ℂ) * Complex.I

/-- The store loop `data[bitrev[i]] = ...` shared by the three channels. -/
def loadPass (N : ℕ) (f : ℕ → ℂ) (bitrev : ℕ → ℕ) (d : ℕ → ℂ) : ℕ → ℂ :=
  (List.range N).foldl (fun buf i => Function.update buf (bitrev i) (f i)) d

/-- `fft_load_data` (fft.c:180-218).  The channel selector is the C enum
`fft_channel_t` whose header is not among the sources; modelled from the
spec (`channel` selects one of Left, Right, Mixed), the enum values are
taken as 0, 1, 2 in declaration order, and any other value falls into
the `default:` branch, which does nothing. -/
def fft_load_data (N : ℕ) (c : ℕ) (inp : ℕ → ℕ) (s : FFTState) : FFTState :=
  if c = 0 then { s with data := loadPass N (sampleL s.window inp) s.bitrev s.data }
  else if c = 1 then { s with data := loadPass N (sampleR s.window inp) s.bitrev s.data }
  else if c = 2 then { s with data := loadPass N (sampleLR s.window inp) s.bitrev s.data }
  else s

/-- The all-zero initial state: static arrays zero-initialised,
`generated = false` (fft.c:15-23). -/
def zeroState : FFTState :=
  { freq := fun _ => 0, bitrev := fun _ => 0, window := fun _ => 0,
    xscale := fun _ => 0, data := fun _ => 0, root := fun _ => 0,
    generated := false, delay := fun _ => 0 }

/-- A state reachable after a first `fft_init` (with `FFT_N = 2`,
`m = 1`, `BAND_N = 2`) followed by `fft_load_data` on channel Left with a
block whose first byte is 1: its time-domain buffer is nonzero. -/
def loadedState : FFTState :=
  fft_load_data 2 0 (fun j => if j = 0 then 1 else 0) (fft_init 2 1 2 zeroState)

/-- The LinearBinner element update as worded by claim C2 (and §4.5 of
the spec document): prior value plus the plain arithmetic average of the
group scaled by `maxVal/40`, the sum halved, then clamped, in exact real
arithmetic.  To be compared with the source-derived `fft_compute_lin`. -/
def specLinElem (step : ℕ) (freq : ℕ → ℝ) (maxv minv : ℕ) (prior i : ℕ) : ℝ :=
  let avg := (∑ k in Finset.range step, freq (step * i + k)) / step
  let v := ((prior : ℝ) + avg * ((maxv : ℝ) / 40)) / 2
  if v > (maxv : ℝ) then maxv else if v < (minv : ℝ) then minv else v

end

/-! ## Helper lemmas -/

theorem loopN_ge {α : Type} (n : ℕ) (g : ℕ → α → α) (buf : ℕ → α)
    (j : ℕ) (hj : n ≤ j) : loopN n g buf j = buf j := by
  induction n with
  | zero => rfl
  | succ k ih =>
    have hk : j ≠ k := by omega
    simp [loopN, Function.update_noteq hk, ih (by omega)]

theorem loopN_lt {α : Type} (n : ℕ) (g : ℕ → α → α) (buf : ℕ → α)
    (j : ℕ) (hj : j < n) : loopN n g buf j = g j (buf j) := by
  induction n with
  | zero => omega
  | succ k ih =>
    by_cases h : j = k
    · subst h
      simp only [loopN, Function.update_same]
      rw [loopN_ge j g buf j le_rfl]
    · have hjk : j < k := by omega
      simp [loopN, Function.update_noteq h, ih hjk]

theorem clampU_mem (maxv minv v : ℕ) (h : minv ≤ maxv) :
    minv ≤ clampU maxv minv v ∧ clampU maxv minv v ≤ maxv := by
  unfold clampU
  split <;> [omega; (split <;> omega)]

theorem bitRevAux_eq (k : ℕ) : ∀ x y, bitRevAux k x y = y * 2 ^ k + revBits k x := by
  induction k with
  | zero => intro x y; simp [bitRevAux, revBits]
  | succ k ih =>
    intro x y
    rw [bitRevAux, ih, revBits]
    ring

theorem bit_reverse_eq_revBits (m x : ℕ) : bit_reverse m x = revBits m x := by
  simp [bit_reverse, bitRevAux_eq]

theorem revBits_lt (k : ℕ) : ∀ x, revBits k x < 2 ^ k := by
  induction k with
  | zero => intro x; simp [revBits]
  | succ k ih =>
    intro x
    have h1 : x % 2 ≤ 1 := by omega
    have h2 : revBits k (x / 2) < 2 ^ k := ih (x / 2)
    calc x % 2 * 2 ^ k + revBits k (x / 2)
        < x % 2 * 2 ^ k + 2 ^ k := by omega
      _ ≤ 1 * 2 ^ k + 2 ^ k := by
          have := Nat.mul_le_mul_right (2 ^ k) h1
          omega
      _ = 2 ^ (k + 1) := by ring

/-- Reversing `k+1` bits of a value with top bit `b` and low bits `s`. -/
theorem revBits_high (k : ℕ) : ∀ b s, b ≤ 1 → s < 2 ^ k →
    revBits (k + 1) (b * 2 ^ k + s) = 2 * revBits k s + b := by
  induction k with
  | zero =>
    intro b s hb hs
    interval_cases s
    interval_cases b <;> simp [revBits]
  | succ k ih =>
    intro b s hb hs
    have hmod : (b * 2 ^ (k + 1) + s) % 2 = s % 2 := by
      have : b * 2 ^ (k + 1) = 2 * (b * 2 ^ k) := by ring
      omega
    have hdiv : (b * 2 ^ (k + 1) + s) / 2 = b * 2 ^ k + s / 2 := by
      have h2 : b * 2 ^ (k + 1) = 2 * (b * 2 ^ k) := by ring
      omega
    rw [revBits, hmod, hdiv, ih b (s / 2) hb (by
      have : s < 2 * 2 ^ k := by
        have : (2:ℕ) ^ (k + 1) = 2 * 2 ^ k := by ring
        omega
      omega)]
    rw [revBits]
    ring

theorem revBits_revBits (k : ℕ) : ∀ x, x < 2 ^ k → revBits k (revBits k x) = x := by
  induction k with
  | zero => intro x hx; interval_cases x; simp [revBits]
  | succ k ih =>
    intro x hx
    have hx1 : revBits (k + 1) x = x % 2 * 2 ^ k + revBits k (x / 2) := rfl
    rw [hx1, revBits_high k (x % 2) (revBits k (x / 2)) (by omega) (revBits_lt k _)]
    rw [ih (x / 2) (by
      have : (2:ℕ) ^ (k + 1) = 2 * 2 ^ k := by ring
      omega)]
    omega

theorem bit_reverse_lt (m x : ℕ) : bit_reverse m x < 2 ^ m := by
  rw [bit_reverse_eq_revBits]; exact revBits_lt m x

theorem bit_reverse_involution (m x : ℕ) (hx : x < 2 ^ m) :
    bit_reverse m (bit_reverse m x) = x := by
  rw [bit_reverse_eq_revBits, bit_reverse_eq_revBits]
  exact revBits_revBits m x hx

/-! ## Claim C8: unknown channel selector is a no-op -/

/-- Claim C8: for every raw input block and every channel selector that is
none of Left (0), Right (1) or Mixed (2), `fft_load_data` leaves the whole
engine state, in particular the time-domain buffer, unchanged. -/
theorem fft_c8_unknown_channel_noop (N c : ℕ) (inp : ℕ → ℕ) (s : FFTState)
    (h0 : c ≠ 0) (h1 : c ≠ 1) (h2 : c ≠ 2) :
    fft_load_data N c inp s = s := by
  simp [fft_load_data, h0, h1, h2]

/-- Witness for C8: channel selector 3 at a concrete state is a no-op. -/
theorem fft_c8_unknown_channel_noop_witness :
    fft_load_data 2 3 (fun _ => 0) zeroState = zeroState :=
  fft_c8_unknown_channel_noop 2 3 (fun _ => 0) zeroState
    (by decide) (by decide) (by decide)

/-! ## Claim C9: the bit-reversal table is a self-inverse bijection -/

/-- Claim C9: for `FFT_N = 2^m`, the bit-reversal table
`bitrev[x] = bit_reverse x` is self-inverse on `0..FFT_N-1` and a
bijection on `0..FFT_N-1`. -/
theorem fft_c9_bitrev_involutive_bijective (m : ℕ) :
    (∀ i, i < 2 ^ m → bit_reverse m (bit_reverse m i) = i) ∧
    Function.Bijective
      (fun i : Fin (2 ^ m) =>
        (⟨bit_reverse m i.1, bit_reverse_lt m i.1⟩ : Fin (2 ^ m))) := by
  refine ⟨fun i hi => bit_reverse_involution m i hi, ?_⟩
  have hinv : Function.Involutive
      (fun i : Fin (2 ^ m) =>
        (⟨bit_reverse m i.1, bit_reverse_lt m i.1⟩ : Fin (2 ^ m))) := by
    intro i
    exact Fin.ext (bit_reverse_involution m i.1 i.2)
  exact hinv.bijective

/-- Witness for C9 at `m = 2`, `i = 1`. -/
theorem fft_c9_bitrev_witness :
    1 < 2 ^ 2 ∧ bit_reverse 2 (bit_reverse 2 1) = 1 :=
  ⟨by decide, (fft_c9_bitrev_involutive_bijective 2).1 1 (by decide)⟩

/-! ## Claim C6: all three output shapers clamp into `[minVal, maxVal]` -/

/-- Claim C6: for every spectrum, every prior output-buffer contents and
every `minVal ≤ maxVal`, after a single call to `fft_compute_lin`,
`fft_compute_log` or `fft_compute_bands` every element of the output
buffer lies within `[minVal, maxVal]`. -/
theorem fft_c6_clamp_range (outN step B N F D maxv minv : ℕ)
    (freq : ℕ → ℝ) (freqB : ℤ → ℝ) (xs : ℕ → ℝ) (out outL : ℕ → ℕ)
    (st : ℕ → ℕ × ℕ) (h : minv ≤ maxv) :
    (∀ i, i < outN → minv ≤ fft_compute_lin outN step freq maxv minv out i ∧
      fft_compute_lin outN step freq maxv minv out i ≤ maxv) ∧
    (∀ i, i < outN → minv ≤ fft_compute_log outN step freq maxv minv outL i ∧
      fft_compute_log outN step freq maxv minv outL i ≤ maxv) ∧
    (∀ i, i < B → minv ≤ (fft_compute_bands B N F D maxv minv freqB xs st i).1 ∧
      (fft_compute_bands B N F D maxv minv freqB xs st i).1 ≤ maxv) := by
  refine ⟨fun i hi => ?_, fun i hi => ?_, fun i hi => ?_⟩
  · rw [fft_compute_lin, loopN_lt _ _ _ i hi]
    exact clampU_mem _ _ _ h
  · rw [fft_compute_log, loopN_lt _ _ _ i hi]
    exact clampU_mem _ _ _ h
  · rw [fft_compute_bands, loopN_lt _ _ _ i hi]
    exact clampU_mem _ _ _ h

/-- Witness for C6: element 0 of a one-element linear output with
`minVal = 0 ≤ maxVal = 5` lies within the bounds. -/
theorem fft_c6_clamp_range_witness :
    0 ≤ fft_compute_lin 1 1 (fun _ => 0) 5 0 (fun _ => 0) 0 ∧
    fft_compute_lin 1 1 (fun _ => 0) 5 0 (fun _ => 0) 0 ≤ 5 :=
  (fft_c6_clamp_range 1 1 1 1 1 1 5 0 (fun _ => 0) (fun _ => 0) (fun _ => 0)
    (fun _ => 0) (fun _ => 0) (fun _ => (0, 0)) (by decide)).1 0 (by decide)

/-! ## Claim C3: the band-boundary table -/

/-- Claim C3 counterexample: at `FFT_N = 4`, `BAND_N = 2` the first entry
of the band-boundary table is `+1/2` (it is `N^0 - 0.5 = 0.5`), not
approximately `-0.5`: it differs from `-0.5` by `1`, far beyond any
floating-point tolerance such as `1/10`. -/
theorem fft_c3_xscale_counterexample :
    xscaleTable 4 2 0 = 1 / 2 ∧ ¬ |xscaleTable 4 2 0 - (-(1 / 2))| ≤ 1 / 10 := by
  have h : xscaleTable 4 2 0 = 1 / 2 := by
    unfold xscaleTable
    norm_num
  refine ⟨h, ?_⟩
  have h1 : xscaleTable 4 2 0 - (-(1 / 2)) = 1 := by rw [h]; norm_num
  rw [h1]
  norm_num

/-- Claim C3, amended: for `FFT_N ≥ 2` and `BAND_N ≥ 1`, the band-boundary
table `xscale[b] = FFT_N^(b/BAND_N) - 0.5`, `b = 0..BAND_N`, is strictly
increasing, its first entry is exactly `+0.5` (not `-0.5`), and its last
entry is `FFT_N - 0.5`. -/
theorem fft_c3_xscale_amended (N B : ℕ) (hN : 2 ≤ N) (hB : 1 ≤ B) :
    (∀ i j, i < j → j ≤ B → xscaleTable N B i < xscaleTable N B j) ∧
    xscaleTable N B 0 = 1 / 2 ∧
    xscaleTable N B B = (N : ℝ) - 1 / 2 := by
  have hN1 : (1 : ℝ) < (N : ℝ) := by
    have : (1 : ℕ) < N := by omega
    exact_mod_cast this
  have hB0 : (0 : ℝ) < (B : ℝ) := by
    have : (0 : ℕ) < B := by omega
    exact_mod_cast this
  refine ⟨fun i j hij _ => ?_, ?_, ?_⟩
  · unfold xscaleTable
    have hlt : (i : ℝ) / (B : ℝ) < (j : ℝ) / (B : ℝ) := by
      apply div_lt_div_of_pos_right _ hB0
      exact_mod_cast hij
    have := (Real.rpow_lt_rpow_left_iff hN1).mpr hlt
    linarith
  · unfold xscaleTable
    norm_num
  · unfold xscaleTable
    rw [div_self (ne_of_gt hB0), Real.rpow_one]
    norm_num

/-- Witness for C3 (amended) at `FFT_N = 4`, `BAND_N = 2`. -/
theorem fft_c3_xscale_amended_witness :
    xscaleTable 4 2 0 < xscaleTable 4 2 1 ∧ xscaleTable 4 2 0 = 1 / 2 ∧
    xscaleTable 4 2 2 = ((4 : ℕ) : ℝ) - 1 / 2 :=
  ⟨(fft_c3_xscale_amended 4 2 (by norm_num) (by norm_num)).1 0 1
      (by norm_num) (by norm_num),
   (fft_c3_xscale_amended 4 2 (by norm_num) (by norm_num)).2.1,
   (fft_c3_xscale_amended 4 2 (by norm_num) (by norm_num)).2.2⟩

/-! ## Claim C7: nonnegativity of the derived spectrum -/

/-- Claim C7 counterexample: with `FFT_N = 2`, an impulse in the complex
buffer and `scale_factor = -1`, the derived spectrum entry 0 is `-1/4`,
which is negative, so the claim fails for arbitrary `scale_factor`. -/
theorem fft_c7_freq_counterexample :
    freqOut 2 (-1) (fft_execute_data 1 (rootTable 2)
      (fun n => if n = 0 then 1 else 0)) 0 < 0 := by
  have hd : fft_execute_data 1 (rootTable 2) (fun n => if n = 0 then 1 else 0) =
      fftPass 1 1 (rootTable 2) (fun n => if n = 0 then 1 else 0) := by
    simp [fft_execute_data, fftRun]
  rw [freqOut]
  simp only [if_pos rfl]
  rw [freqRaw, hd]
  norm_num [fftPass, rootTable]

/-- Claim C7, amended: for every complex buffer contents and every
`scale_factor ≥ 0`, after `fft_execute` every entry of the derived
spectrum `freq` is nonnegative. -/
theorem fft_c7_freq_nonneg (N : ℕ) (sf : ℝ) (hsf : 0 ≤ sf)
    (d : ℕ → ℂ) (j : ℕ) : 0 ≤ freqOut N sf d j := by
  have h : ∀ jj, 0 ≤ freqRaw N sf d jj := by
    intro jj
    rw [freqRaw]
    split <;>
      exact mul_nonneg (div_nonneg
        (mul_nonneg (by norm_num) (Complex.abs.nonneg _)) (Nat.cast_nonneg N)) hsf
  rw [freqOut]
  split
  · linarith [h 0]
  · exact h j

/-- Witness for C7 (amended) at `scale_factor = 1`. -/
theorem fft_c7_freq_nonneg_witness :
    0 ≤ freqOut 2 1 (fun _ => 0) 0 :=
  fft_c7_freq_nonneg 2 1 (by norm_num) (fun _ => 0) 0

/-! ## Claim C2: the linear binner -/

/-- Claim C2 counterexample: with group average 10, `maxVal = 40`,
`minVal = 0` and prior value 0, the code writes 10 (it adds *twice* the
average times `maxVal/40`, because `compute_freq_lin` returns
`n / step * 2.0`), while the claimed formula (plain average) gives 5. -/
theorem fft_c2_lin_counterexample :
    ((fft_compute_lin 4 2 (fun _ => 10) 40 0 (fun _ => 0) 0 : ℕ) : ℝ) ≠
      specLinElem 2 (fun _ => 10) 40 0 0 0 ∧
    fft_compute_lin 4 2 (fun _ => 10) 40 0 (fun _ => 0) 0 = 10 ∧
    specLinElem 2 (fun _ => 10) 40 0 0 0 = 5 := by
  have hm : fft_compute_lin 4 2 (fun _ => 10) 40 0 (fun _ => 0) 0 = 10 := by
    rw [fft_compute_lin, loopN_lt _ _ _ 0 (by norm_num)]
    simp only [linUpdate, compute_freq_lin, toU16, clampU]
    norm_num [Finset.sum_range_succ]
    have h20 : Int.toNat 20 = 20 := rfl
    rw [h20]
    norm_num
    decide
  have hs : specLinElem 2 (fun _ => 10) 40 0 0 0 = 5 := by
    simp only [specLinElem]
    norm_num [Finset.sum_range_succ]
  refine ⟨?_, hm, hs⟩
  rw [hm, hs]
  norm_num

/-- Claim C2, amended: `fft_compute_lin` writes `FFT_OUT_N` values where
the i-th new value is the prior value plus *twice* the arithmetic average
of the `FFT_N/FFT_OUT_N` consecutive spectrum bins of group i scaled by
`maxVal/40` (truncated to a 16-bit integer on store), the sum then halved
(again with integer truncation), then clamped to `[minVal, maxVal]`. -/
theorem fft_c2_lin_pointwise (outN step maxv minv : ℕ) (freq : ℕ → ℝ)
    (out : ℕ → ℕ) (i : ℕ) (hi : i < outN) :
    fft_compute_lin outN step freq maxv minv out i =
      clampU maxv minv (toU16 ((toU16 ((out i : ℝ) +
        ((∑ k in Finset.range step, freq (step * i + k)) / step * 2) *
          ((maxv : ℝ) / 40)) : ℕ) / 2)) := by
  rw [fft_compute_lin, loopN_lt _ _ _ i hi]
  rfl

/-- Witness for C2 (amended): concrete evaluation through the theorem at
group average 10, `maxVal = 40`, prior value 0, index 1. -/
theorem fft_c2_lin_pointwise_witness :
    fft_compute_lin 4 2 (fun _ => 10) 40 0 (fun _ => 0) 1 = 10 := by
  rw [fft_c2_lin_pointwise 4 2 40 0 (fun _ => 10) (fun _ => 0) 1 (by norm_num)]
  simp only [toU16, clampU]
  norm_num [Finset.sum_range_succ]
  have h20 : Int.toNat 20 = 20 := rfl
  rw [h20]
  norm_num
  decide

/-! ## Claim C10: in-bounds spectrum access in `compute_freq_band` -/

/-- Claim C10: given a band-boundary table with all entries in
`[0.5, N - 0.5]` (as produced by `compute_fft_tables`) and increasing,
every spectrum access performed by `compute_freq_band` for a band index
`band < BAND_N` uses an index within `0..FFT_N-1` — also in the
narrow-band branch — and consequently the result depends only on the
in-range part of `freq`. -/
theorem fft_c10_band_access_inbounds (N B band : ℕ) (xs : ℕ → ℝ)
    (hband : band < B)
    (hlo : ∀ j, j ≤ B → 1 / 2 ≤ xs j)
    (hhi : ∀ j, j ≤ B → xs j ≤ (N : ℝ) - 1 / 2)
    (hmono : ∀ i j, i < j → j ≤ B → xs i < xs j) :
    (∀ idx ∈ bandAccess N xs band, 0 ≤ idx ∧ idx < (N : ℤ)) ∧
    (∀ f g : ℤ → ℝ, (∀ i : ℤ, 0 ≤ i → i < (N : ℤ) → f i = g i) →
      compute_freq_band N B f xs band = compute_freq_band N B g xs band) := by
  have hb1 : band ≤ B := le_of_lt hband
  have hb2 : band + 1 ≤ B := hband
  have ha_pos : 0 < ⌈xs band⌉ := by
    rw [Int.ceil_pos]
    linarith [hlo band hb1]
  have ha_le : ⌈xs band⌉ ≤ (N : ℤ) := by
    rw [Int.ceil_le]
    push_cast
    linarith [hhi band hb1]
  have hfl_nonneg : 0 ≤ ⌊xs (band + 1)⌋ := by
    rw [Int.le_floor]
    push_cast
    linarith [hlo (band + 1) hb2]
  have hfl_lt : ⌊xs (band + 1)⌋ < (N : ℤ) := by
    rw [Int.floor_lt]
    push_cast
    linarith [hhi (band + 1) hb2]
  constructor
  · intro idx hidx
    rw [bandAccess] at hidx
    by_cases hba : ⌊xs (band + 1)⌋ < ⌈xs band⌉
    · rw [if_pos hba] at hidx
      rw [Finset.mem_singleton] at hidx
      subst hidx
      exact ⟨hfl_nonneg, hfl_lt⟩
    · rw [if_neg hba] at hidx
      rw [Finset.mem_union, Finset.mem_union] at hidx
      rcases hidx with (h | h) | h
      · rw [if_pos ha_pos, Finset.mem_singleton] at h
        subst h
        omega
      · rw [Finset.mem_Ico] at h
        omega
      · rw [if_pos hfl_lt, Finset.mem_singleton] at h
        subst h
        exact ⟨hfl_nonneg, hfl_lt⟩
  · intro f g hfg
    rw [compute_freq_band, compute_freq_band]
    by_cases hba : ⌊xs (band + 1)⌋ < ⌈xs band⌉
    · rw [if_pos hba, if_pos hba, hfg _ hfl_nonneg hfl_lt]
    · rw [if_neg hba, if_neg hba]
      have e1 : (if 0 < ⌈xs band⌉ then f (⌈xs band⌉ - 1) * ((⌈xs band⌉ : ℝ) - xs band) else 0) =
          (if 0 < ⌈xs band⌉ then g (⌈xs band⌉ - 1) * ((⌈xs band⌉ : ℝ) - xs band) else 0) := by
        rw [if_pos ha_pos, if_pos ha_pos, hfg _ (by omega) (by omega)]
      have e2 : (∑ j in Finset.Ico ⌈xs band⌉ ⌊xs (band + 1)⌋, f j) =
          (∑ j in Finset.Ico ⌈xs band⌉ ⌊xs (band + 1)⌋, g j) := by
        refine Finset.sum_congr rfl fun j hj => ?_
        rw [Finset.mem_Ico] at hj
        exact hfg j (by omega) (by omega)
      have e3 : (if ⌊xs (band + 1)⌋ < (N : ℤ) then
            f ⌊xs (band + 1)⌋ * (xs (band + 1) - (⌊xs (band + 1)⌋ : ℝ)) else 0) =
          (if ⌊xs (band + 1)⌋ < (N : ℤ) then
            g ⌊xs (band + 1)⌋ * (xs (band + 1) - (⌊xs (band + 1)⌋ : ℝ)) else 0) := by
        rw [if_pos hfl_lt, if_pos hfl_lt, hfg _ hfl_nonneg hfl_lt]
      rw [e1, e2, e3]

/-- Witness for C10: with `FFT_N = 4`, `BAND_N = 2`, boundary table
`xs j = 1/2 + j` and band 0, the accessed index 0 is in bounds. -/
theorem fft_c10_band_access_inbounds_witness :
    (0 : ℤ) ≤ 0 ∧ (0 : ℤ) < ((4 : ℕ) : ℤ) :=
  (fft_c10_band_access_inbounds 4 2 0 (fun j => 1 / 2 + j) (by norm_num)
    (by
      intro j hj
      have : (0 : ℝ) ≤ (j : ℝ) := Nat.cast_nonneg j
      linarith)
    (by
      intro j hj
      have : (j : ℝ) ≤ 2 := by exact_mod_cast hj
      push_cast
      linarith)
    (by
      intro i j hij hj
      have : (i : ℝ) < (j : ℝ) := by exact_mod_cast hij
      linarith)).1 0
    (by
      rw [bandAccess]
      norm_num
      have hc : ⌈(1 : ℝ) / 2⌉ = 1 := by
        rw [Int.ceil_eq_iff]
        constructor <;> norm_num
      rw [hc]
      norm_num)

/-! ## Claim C4: idempotence of `fft_init` -/

theorem zero_loopN_idem (N : ℕ) (d : ℕ → ℂ) :
    loopN N (fun _ _ => (0 : ℂ)) (loopN N (fun _ _ => (0 : ℂ)) d) =
      loopN N (fun _ _ => (0 : ℂ)) d := by
  funext j
  by_cases hj : j < N
  · rw [loopN_lt _ _ _ j hj, loopN_lt _ _ _ j hj]
  · rw [loopN_ge _ _ _ j (le_of_not_lt hj)]

/-- Claim C4 counterexample: the state reached by `fft_init` followed by
`fft_load_data` is changed by a second `fft_init`, because `fft_init`
unconditionally `memset`s the time-domain buffer (fft.c:222) before the
`generated` guard; only the table generation is guarded. -/
theorem fft_c4_init_counterexample :
    fft_init 2 1 2 loadedState ≠ loadedState := by
  have hwin : (fft_init 2 1 2 zeroState).window 0 = windowTable 2 0 := by
    simp only [fft_init, zeroState]
    norm_num [compute_fft_tables, loopN_lt _ _ _ 0 (by norm_num : (0:ℕ) < 4)]
  have hbr : (fft_init 2 1 2 zeroState).bitrev 0 = 0 ∧
      (fft_init 2 1 2 zeroState).bitrev 1 = 1 := by
    simp only [fft_init, zeroState]
    norm_num [compute_fft_tables,
      loopN_lt _ _ _ 0 (by norm_num : (0:ℕ) < 2),
      loopN_lt _ _ _ 1 (by norm_num : (1:ℕ) < 2)]
    constructor <;> rfl
  have hgen : loadedState.generated = true := by
    simp [loadedState, fft_load_data, fft_init, zeroState]
  have hdat : loadedState.data 0 =
      sampleL (fft_init 2 1 2 zeroState).window (fun j => if j = 0 then 1 else 0) 0 := by
    rw [loadedState, fft_load_data]
    simp only [eq_self_iff_true, if_true]
    show loadPass 2 _ _ _ 0 = _
    rw [loadPass]
    have hr : List.range 2 = [0, 1] := rfl
    rw [hr]
    simp only [List.foldl]
    rw [hbr.1, hbr.2]
    rw [Function.update_noteq (by norm_num), Function.update_same]
  have hval : loadedState.data 0 = ((0.07672 : ℝ) : ℂ) := by
    rw [hdat, sampleL]
    have h16a : sample16 (fun j => if j = 0 then 1 else 0) (0 * 8) (0 * 8 + 1) = 1 := rfl
    have h16b : sample16 (fun j => if j = 0 then 1 else 0) (0 * 8 + 4) (0 * 8 + 5) = 0 := rfl
    rw [h16a, h16b]
    have hw : (fft_init 2 1 2 zeroState).window (0 * 2) = windowTable 2 0 := by
      rw [show (0 : ℕ) * 2 = 0 from rfl]
      exact hwin
    rw [hw, windowTable]
    norm_num [Real.cos_zero]
  intro h
  have hdata := congrArg (fun t => t.data 0) h
  simp only at hdata
  have hzero : (fft_init 2 1 2 loadedState).data 0 = 0 := by
    simp only [fft_init, hgen]
    have : loadedState.generated = true := hgen
    simp only [this, if_pos]
    exact loopN_lt _ _ _ 0 (by norm_num)
  rw [hzero, hval] at hdata
  have hre := congrArg Complex.re hdata
  norm_num at hre

/-- Claim C4, amended: `fft_init` is idempotent as a state transformer
(`fft_init (fft_init s) = fft_init s`), and once the tables have been
generated a further call leaves the tables, the spectrum and the decay
counters unchanged but re-zeroes the time-domain buffer — the `memset`
runs on every call, so a second call is *not* a no-op on the buffer. -/
theorem fft_c4_init_amended (N m B : ℕ) (s : FFTState) :
    fft_init N m B (fft_init N m B s) = fft_init N m B s ∧
    (s.generated = true →
      fft_init N m B s = { s with data := loopN N (fun _ _ => (0 : ℂ)) s.data }) := by
  constructor
  · cases hg : s.generated
    · simp only [fft_init, compute_fft_tables, hg]
      simp [zero_loopN_idem]
    · simp only [fft_init, hg]
      simp [zero_loopN_idem]
  · intro hg
    simp only [fft_init, hg]
    simp

/-- Witness for C4 (amended) at a concrete already-generated state. -/
theorem fft_c4_init_amended_witness :
    fft_init 2 1 2 (fft_init 2 1 2 loadedState) = fft_init 2 1 2 loadedState ∧
    fft_init 2 1 2 loadedState =
      { loadedState with data := loopN 2 (fun _ _ => (0 : ℂ)) loadedState.data } :=
  ⟨(fft_c4_init_amended 2 1 2 loadedState).1,
   (fft_c4_init_amended 2 1 2 loadedState).2
     (by simp [loadedState, fft_load_data, fft_init, zeroState])⟩

/-! ## Claim C5: the per-band decay behaviour of `fft_compute_bands` -/

/-- With `delay = 0` and a new value `x` that does not exceed the decayed
displayed value, a band step decays by `BAND_FADE` (floored at 0 by the
`ℕ` subtraction), clamps, and leaves the delay at 0. -/
theorem bandStep_no_snap (F D maxv minv : ℕ) (x : ℝ) (out : ℕ)
    (hout : out ≤ 65535) (hx : x ≤ ((out - F : ℕ) : ℝ)) :
    bandStep F D maxv minv x (out, 0) = (clampU maxv minv (out - F), 0) := by
  simp only [bandStep]
  have hv1 : (Int.toNat (max 0 ((((out, 0) : ℕ × ℕ).1 : ℤ) -
      ((F : ℤ) - (((out, 0) : ℕ × ℕ).2 : ℤ))))) % 65536 = out - F := by
    simp only []
    omega
  rw [hv1]
  rw [if_neg (not_lt.mpr hx)]
  simp

/-- `fft_compute_bands` acts on band `b < BAND_N` exactly by `bandStep`
on that band's pair, with the value `x` computed from the spectrum. -/
theorem fft_compute_bands_apply (B N F D maxv minv : ℕ) (freq : ℤ → ℝ)
    (xs : ℕ → ℝ) (st : ℕ → ℕ × ℕ) (b : ℕ) (hb : b < B) :
    fft_compute_bands B N F D maxv minv freq xs st b =
      bandStep F D maxv minv (bandX N B maxv freq xs b) (st b) := by
  rw [fft_compute_bands, loopN_lt _ _ _ b hb]

theorem bands_no_snap_step (B N F D maxv minv : ℕ) (freq : ℤ → ℝ)
    (xs : ℕ → ℝ) (st : ℕ → ℕ × ℕ) (b : ℕ) (hb : b < B)
    (hd : (st b).2 = 0) (hout : (st b).1 ≤ 65535)
    (hx : bandX N B maxv freq xs b ≤ (((st b).1 - F : ℕ) : ℝ)) :
    fft_compute_bands B N F D maxv minv freq xs st b =
      (clampU maxv minv ((st b).1 - F), 0) := by
  rw [fft_compute_bands_apply B N F D maxv minv freq xs st b hb]
  have hst : st b = ((st b).1, 0) := by
    rw [← hd]
  rw [hst]
  exact bandStep_no_snap F D maxv minv _ ((st b).1) hout hx

/-- Concrete band value: with `FFT_N = 4`, `BAND_N = 2`, `maxVal = 64`,
a constant spectrum of 24 and boundary table `xs j = 1/2 + j`, band 0
computes `x = (40 + 20*log10(1)) * (64/64) = 40`. -/
theorem bandX_concrete :
    bandX 4 2 64 (fun _ => (24 : ℝ)) (fun j => 1 / 2 + (j : ℝ)) 0 = 40 := by
  rw [bandX, compute_freq_band]
  have hc : ⌈(1 : ℝ) / 2 + ((0 : ℕ) : ℝ)⌉ = 1 := by
    rw [Int.ceil_eq_iff]
    push_cast
    constructor <;> norm_num
  have hf : ⌊(1 : ℝ) / 2 + (((0 : ℕ) + 1 : ℕ) : ℝ)⌋ = 1 := by
    push_cast
    norm_num
  rw [hc, hf]
  norm_num

/-- Claim C5 counterexample: with `BAND_FADE = 4`, hold expired
(`delay = 0`), `minVal = 50 ≤ maxVal = 64`, displayed value 52 and a new
computed value `x = 40` not exceeding it, the code yields 50 — the
decayed value 48 is raised back to `minVal` by the final clamp — while
the claim's per-frame rule "decays by `(BAND_FADE - delay)` floored at 0"
predicts 48. -/
theorem fft_c5_decay_counterexample :
    (fft_compute_bands 2 4 4 8 64 50 (fun _ => 24) (fun j => 1 / 2 + (j : ℝ))
      (fun _ => (52, 0)) 0).1 = 50 ∧
    (52 - (4 - 0) : ℕ) = 48 ∧ (50 : ℕ) ≠ 48 := by
  refine ⟨?_, by norm_num, by norm_num⟩
  rw [bands_no_snap_step 2 4 4 8 64 50 (fun _ => 24) (fun j => 1 / 2 + (j : ℝ))
    (fun _ => (52, 0)) 0 (by norm_num) rfl (by norm_num)
    (by rw [bandX_concrete]; norm_num)]
  norm_num [clampU]

/-- Claim C5, amended: for every band `b` and every sequence of
`fft_compute_bands` frames in which the newly computed value never
exceeds the (decayed) displayed value and `delay[b]` starts at zero
(hold expired), the displayed value is monotonically non-increasing
across frames; each frame it becomes
`clamp(minVal, maxVal, max(0, previous - BAND_FADE))` — the decay by
`BAND_FADE - delay[b]` floored at 0 can be masked by the `minVal`
clamp — and `delay[b]` stays at zero (it is decremented only while
positive, and the fade amount `BAND_FADE - delay[b]` never decreases). -/
theorem fft_c5_decay_amended (B N F D maxv minv : ℕ) (xs : ℕ → ℝ)
    (freqs : List (ℤ → ℝ)) (st0 : ℕ → ℕ × ℕ) (b : ℕ)
    (hb : b < B) (hmm : minv ≤ maxv) (hmax : maxv ≤ 65535)
    (hd0 : (st0 b).2 = 0) (hout0 : (st0 b).1 ≤ 65535) (hmin0 : minv ≤ (st0 b).1)
    (hx : ∀ k (hk : k < freqs.length),
      bandX N B maxv (freqs.get ⟨k, hk⟩) xs b ≤
        (((bandsIter B N F D maxv minv xs (freqs.take k) st0 b).1 - F : ℕ) : ℝ)) :
    ∀ k, k < freqs.length →
      (bandsIter B N F D maxv minv xs (freqs.take (k + 1)) st0 b).1 =
        clampU maxv minv
          ((bandsIter B N F D maxv minv xs (freqs.take k) st0 b).1 - F) ∧
      (bandsIter B N F D maxv minv xs (freqs.take (k + 1)) st0 b).1 ≤
        (bandsIter B N F D maxv minv xs (freqs.take k) st0 b).1 ∧
      (bandsIter B N F D maxv minv xs (freqs.take (k + 1)) st0 b).2 = 0 := by
  have hstep : ∀ k (hk : k < freqs.length),
      bandsIter B N F D maxv minv xs (freqs.take (k + 1)) st0 =
        fft_compute_bands B N F D maxv minv (freqs.get ⟨k, hk⟩) xs
          (bandsIter B N F D maxv minv xs (freqs.take k) st0) := by
    intro k hk
    rw [bandsIter, bandsIter, List.take_succ, List.foldl_append]
    rw [List.getElem?_eq_getElem hk]
    simp [List.get_eq_getElem]
  have hinv : ∀ k, k ≤ freqs.length →
      (bandsIter B N F D maxv minv xs (freqs.take k) st0 b).2 = 0 ∧
      (bandsIter B N F D maxv minv xs (freqs.take k) st0 b).1 ≤ 65535 ∧
      minv ≤ (bandsIter B N F D maxv minv xs (freqs.take k) st0 b).1 := by
    intro k
    induction k with
    | zero =>
      intro _
      simp only [List.take_zero, bandsIter, List.foldl_nil]
      exact ⟨hd0, hout0, hmin0⟩
    | succ k ih =>
      intro hk1
      have hk : k < freqs.length := by omega
      have ihk := ih (by omega)
      rw [hstep k hk,
        bands_no_snap_step B N F D maxv minv _ xs _ b hb ihk.1 ihk.2.1 (hx k hk)]
      refine ⟨rfl, ?_, ?_⟩
      · unfold clampU
        split <;> [omega; (split <;> omega)]
      · unfold clampU
        split <;> [omega; (split <;> omega)]
  intro k hk
  have ihk := hinv k (by omega)
  have heq := bands_no_snap_step B N F D maxv minv (freqs.get ⟨k, hk⟩) xs
    (bandsIter B N F D maxv minv xs (freqs.take k) st0) b hb ihk.1 ihk.2.1 (hx k hk)
  rw [hstep k hk, heq]
  refine ⟨rfl, ?_, rfl⟩
  unfold clampU
  have h1 := ihk.2.2
  split <;> [omega; (split <;> omega)]

/-- Witness for C5 (amended): one hold-expired frame with displayed value
100, `BAND_FADE = 4`, `minVal = 0`, `maxVal = 64` and new value 40. -/
theorem fft_c5_decay_amended_witness :
    (bandsIter 2 4 4 8 64 0 (fun j => 1 / 2 + (j : ℝ))
        (List.take 1 [fun _ => (24 : ℝ)]) (fun _ => (100, 0)) 0).1 =
      clampU 64 0
        ((bandsIter 2 4 4 8 64 0 (fun j => 1 / 2 + (j : ℝ))
            (List.take 0 [fun _ => (24 : ℝ)]) (fun _ => (100, 0)) 0).1 - 4) ∧
    (bandsIter 2 4 4 8 64 0 (fun j => 1 / 2 + (j : ℝ))
        (List.take 1 [fun _ => (24 : ℝ)]) (fun _ => (100, 0)) 0).1 ≤
      (bandsIter 2 4 4 8 64 0 (fun j => 1 / 2 + (j : ℝ))
          (List.take 0 [fun _ => (24 : ℝ)]) (fun _ => (100, 0)) 0).1 ∧
    (bandsIter 2 4 4 8 64 0 (fun j => 1 / 2 + (j : ℝ))
        (List.take 1 [fun _ => (24 : ℝ)]) (fun _ => (100, 0)) 0).2 = 0 :=
  fft_c5_decay_amended 2 4 4 8 64 0 (fun j => 1 / 2 + (j : ℝ))
    [fun _ => (24 : ℝ)] (fun _ => (100, 0)) 0
    (by norm_num) (by norm_num) (by norm_num) rfl (by norm_num) (by norm_num)
    (by
      intro k hk
      have hk1 : k < 1 := by simpa using hk
      have hk0 : k = 0 := by omega
      subst hk0
      show bandX 4 2 64 (fun _ => (24 : ℝ)) (fun j => 1 / 2 + (j : ℝ)) 0 ≤
        ((96 : ℕ) : ℝ)
      rw [bandX_concrete]
      norm_num)
    0 (by norm_num)

/-! ## Claim C1: the butterfly network versus the reference DFT -/

/-- Claim C1: the transform does **not** match the reference DFT.  With
`FFT_N = 4` and a time-domain impulse at index 1 (loaded bit-reversed),
the butterfly network driven by the twiddle table
`root[i] = exp(-2·π·i/(FFT_N - 1) · I)` produces `exp(-2·π/3 · I)`
(real part `-1/2`) at bin 1, whereas the reference DFT gives
`exp(-π/2 · I) = -I` (real part `0`): the outputs differ by more than the
spec's `1e-4` tolerance, because the twiddle denominator is `FFT_N - 1`
instead of `FFT_N`. -/
theorem fft_c1_twiddle_vs_dft :
    (fft_execute_data 2 (rootTable 4) impulse1Rev 1).re = -(1 / 2) ∧
    (dft 4 impulse1 1).re = 0 ∧
    1 / 10000 <
      Complex.abs (fft_execute_data 2 (rootTable 4) impulse1Rev 1 - dft 4 impulse1 1) := by
  have hout : fft_execute_data 2 (rootTable 4) impulse1Rev 1 = rootTable 4 1 := by
    have hrun : fft_execute_data 2 (rootTable 4) impulse1Rev =
        fftPass 2 1 (rootTable 4) (fftPass 1 2 (rootTable 4) impulse1Rev) := by
      show fftRun (rootTable 4) 2 1 (2 ^ 2 / 2) impulse1Rev = _
      norm_num [fftRun]
    rw [hrun]
    rw [fftPass]
    norm_num
    rw [fftPass, fftPass]
    norm_num [impulse1Rev, impulse1, bit_reverse, bitRevAux]
  have houtre : (rootTable 4 1).re = -(1 / 2) := by
    rw [rootTable]
    have harg : (-(((1 : ℕ) : ℝ) * (2 * Real.pi) / (((4 : ℕ) : ℝ) - 1))) =
        -(2 * Real.pi / 3) := by
      push_cast
      ring
    rw [harg]
    rw [Complex.exp_ofReal_mul_I_re]
    rw [Real.cos_neg]
    have h23 : 2 * Real.pi / 3 = Real.pi - Real.pi / 3 := by ring
    rw [h23, Real.cos_pi_sub, Real.cos_pi_div_three]
  have hrefre : (dft 4 impulse1 1).re = 0 := by
    rw [dft, Finset.sum_range_succ, Finset.sum_range_succ, Finset.sum_range_succ,
      Finset.sum_range_succ, Finset.sum_range_zero]
    have h0 : impulse1 0 = 0 := rfl
    have h1 : impulse1 1 = 1 := rfl
    have h2 : impulse1 2 = 0 := rfl
    have h3 : impulse1 3 = 0 := rfl
    rw [h0, h1, h2, h3]
    simp only [zero_mul, one_mul, add_zero, zero_add]
    have harg : (-(2 * Real.pi * ((1 : ℕ) : ℝ) * ((1 : ℕ) : ℝ) / ((4 : ℕ) : ℝ))) =
        -(Real.pi / 2) := by
      push_cast
      ring
    rw [harg]
    rw [Complex.exp_ofReal_mul_I_re]
    rw [Real.cos_neg, Real.cos_pi_div_two]
  refine ⟨by rw [hout]; exact houtre, hrefre, ?_⟩
  have hre : (fft_execute_data 2 (rootTable 4) impulse1Rev 1 - dft 4 impulse1 1).re =
      -(1 / 2) := by
    rw [Complex.sub_re, hout, houtre, hrefre]
    norm_num
  have habs := Complex.abs_re_le_abs
    (fft_execute_data 2 (rootTable 4) impulse1Rev 1 - dft 4 impulse1 1)
  rw [hre] at habs
  have habs2 : |(-(1 / 2) : ℝ)| = 1 / 2 := by norm_num
  rw [habs2] at habs
  linarith

end FFTC
